import Mathlib

/-!
Shallow embedding of src/src/text_snippets.cpp (class snippet_library).

Strings (std::string) are modelled as lists of characters.  The C++
unordered_map / map containers are modelled as association lists with a
lookup that returns the first matching key and an insert that overwrites
the first matching key in place (operator[] assignment semantics);
std::map::emplace, which never overwrites, gets its own function.

The random machinery (std::mt19937 seeded with the given seed, composed
with std::uniform_int_distribution over [0, count-1]) is modelled by an
explicit parameter d : Nat -> Nat -> Nat mapping (seed, count) to the
drawn index; the standard leaves the distribution mapping
implementation-defined, so only the range property d seed count < count
is assumed where needed.  The translation type and the effect payload are
external collaborators and appear as opaque records carrying exactly what
this unit reads from them.
-/

set_option autoImplicit false

abbrev Str := List Char

/-- External translation type: holds source text, can produce display text
and an optional legacy content hash. -/
structure translation where
  txt : Str
  legacy_hash_val : Option Int
deriving DecidableEq

def translation.translated (t : translation) : Str := t.txt

def translation.legacy_hash (t : translation) : Option Int := t.legacy_hash_val

def empty_translation : translation := { txt := [], legacy_hash_val := none }

/-- Snippet identifier (string_id); NULL_ID is the distinguished null value. -/
structure snippet_id where
  str : Str
deriving DecidableEq

def snippet_id.NULL_ID : snippet_id := { str := [ 'n', 'u', 'l', 'l' ] }

def snippet_id.is_null (id : snippet_id) : Bool := id = snippet_id.NULL_ID

/-- Opaque effect payload (talk_effect_t) attached to some entries. -/
structure talk_effect where
  payload : Str
deriving DecidableEq

/-- Per-category bucket: identified ids and anonymous texts, in insertion order. -/
structure category_snippets where
  ids : List snippet_id
  no_id : List translation
deriving DecidableEq

def empty_bucket : category_snippets := { ids := [], no_id := [] }

/-- First-match association list lookup (std::unordered_map::find). -/
def alist_lookup {K V : Type} [DecidableEq K] : List (K × V) → K → Option V
  | [], _ => none
  | (k, v) :: rest, key => if k = key then some v else alist_lookup rest key

/-- Overwrite-or-append insertion (m[k] = v assignment semantics). -/
def alist_insert {K V : Type} [DecidableEq K] : List (K × V) → K → V → List (K × V)
  | [], key, val => [(key, val)]
  | (k, v) :: rest, key, val =>
    if k = key then (key, val) :: rest else (k, v) :: alist_insert rest key val

/-- Insert-if-absent (std::map::emplace semantics: never overwrites). -/
def alist_emplace {K V : Type} [DecidableEq K] : List (K × V) → K → V → List (K × V)
  | [], key, val => [(key, val)]
  | (k, v) :: rest, key, val =>
    if k = key then (k, v) :: rest else (k, v) :: alist_emplace rest key val

/-- Modify the bucket stored at a category key, default-constructing the
bucket when the key is absent (operator[] access followed by mutation). -/
def bucket_modify (m : List (Str × category_snippets)) (cat : Str)
    (f : category_snippets → category_snippets) : List (Str × category_snippets) :=
  match m with
  | [] => [(cat, f empty_bucket)]
  | (k, v) :: rest =>
    if k = cat then (k, f v) :: rest else (k, v) :: bucket_modify rest cat f

/-- Append an id to the identified sequence of a bucket. -/
def push_id (id : snippet_id) (b : category_snippets) : category_snippets :=
  { b with ids := b.ids ++ [id] }

/-- Append an anonymous text to a bucket. -/
def push_anon (t : translation) (b : category_snippets) : category_snippets :=
  { b with no_id := b.no_id ++ [t] }

/-- State of the snippet_library singleton. -/
structure snippet_library where
  snippets_by_category : List (Str × category_snippets)
  snippets_by_id : List (snippet_id × translation)
  EOC_by_id : List (snippet_id × talk_effect)
  name_by_id : List (snippet_id × translation)
  hash_to_id_migration : Option (List (Int × snippet_id))
deriving DecidableEq

def empty_library : snippet_library :=
  { snippets_by_category := [], snippets_by_id := [], EOC_by_id := [],
    name_by_id := [], hash_to_id_migration := none }

/-- One JSON snippet record, after the out-of-scope JSON layer has read its
fields: mandatory text, optional id, optional effect, optional name. -/
structure snippet_json where
  text : translation
  id : Option snippet_id
  effect_on_examine : Option talk_effect
  name : Option translation
deriving DecidableEq

/-- Load-time errors thrown by add_snippet_from_json. -/
inductive snippet_err where
  | InvalidId
  | DuplicateId
deriving DecidableEq

/-- snippet_library::add_snippet_from_json.  The C++ method mutates the
member hash_to_id_migration before the id checks and then throws, so the
returned state carries that invalidation even on the error outcomes. -/
def add_snippet_from_json (lib : snippet_library) (category : Str)
    (jo : snippet_json) : snippet_library × Option snippet_err :=
  let lib1 : snippet_library := { lib with hash_to_id_migration := none }
  match jo.id with
  | some id =>
    if id.is_null then (lib1, some snippet_err.InvalidId)
    else if (alist_lookup lib1.snippets_by_id id).isSome then
      (lib1, some snippet_err.DuplicateId)
    else
      let lib2 : snippet_library :=
        { lib1 with snippets_by_category := bucket_modify lib1.snippets_by_category category (push_id id) }
      let lib3 : snippet_library :=
        { lib2 with snippets_by_id := alist_insert lib2.snippets_by_id id jo.text }
      let lib4 : snippet_library :=
        match jo.effect_on_examine with
        | some e => { lib3 with EOC_by_id := alist_insert lib3.EOC_by_id id e }
        | none => lib3
      let nm : translation := jo.name.getD empty_translation
      ({ lib4 with name_by_id := alist_insert lib4.name_by_id id nm }, none)
  | none =>
    ({ lib1 with snippets_by_category := bucket_modify lib1.snippets_by_category category (push_anon jo.text) }, none)

/-- One element of a JSON "text" array: a bare string or a record. -/
inductive snippet_entry where
  | str (t : translation)
  | obj (jo : snippet_json)
deriving DecidableEq

/-- Loop body of snippet_library::add_snippets_from_json: a thrown error
stops the loop, keeping the insertions made so far. -/
def add_entries : snippet_library → Str → List snippet_entry →
    snippet_library × Option snippet_err
  | lib, _, [] => (lib, none)
  | lib, cat, snippet_entry.str t :: rest =>
    add_entries
      { lib with snippets_by_category := bucket_modify lib.snippets_by_category cat (push_anon t) }
      cat rest
  | lib, cat, snippet_entry.obj jo :: rest =>
    match add_snippet_from_json lib cat jo with
    | (lib', none) => add_entries lib' cat rest
    | (lib', some e) => (lib', some e)

/-- snippet_library::add_snippets_from_json. -/
def add_snippets_from_json (lib : snippet_library) (category : Str)
    (jarr : List snippet_entry) : snippet_library × Option snippet_err :=
  add_entries { lib with hash_to_id_migration := none } category jarr

/-- The "text" member of a top-level load object: a single record (the
object itself) or an array of entries. -/
inductive load_payload where
  | single (jo : snippet_json)
  | arr (entries : List snippet_entry)
deriving DecidableEq

/-- snippet_library::load_snippet: invalidate, read category, dispatch. -/
def load_snippet (lib : snippet_library) (category : Str)
    (payload : load_payload) : snippet_library × Option snippet_err :=
  let lib1 : snippet_library := { lib with hash_to_id_migration := none }
  match payload with
  | load_payload.arr entries => add_snippets_from_json lib1 category entries
  | load_payload.single jo => add_snippet_from_json lib1 category jo

/-- snippet_library::clear_snippets.  Only the category map and the id map
are cleared; EOC_by_id and name_by_id are left untouched by the C++ body. -/
def clear_snippets (lib : snippet_library) : snippet_library :=
  { lib with hash_to_id_migration := none, snippets_by_category := [], snippets_by_id := [] }

/-- snippet_library::has_category. -/
def has_category (lib : snippet_library) (category : Str) : Bool :=
  (alist_lookup lib.snippets_by_category category).isSome

/-- snippet_library::get_snippet_by_id. -/
def get_snippet_by_id (lib : snippet_library) (id : snippet_id) : Option translation :=
  alist_lookup lib.snippets_by_id id

/-- snippet_library::get_EOC_by_id. -/
def get_EOC_by_id (lib : snippet_library) (id : snippet_id) : Option talk_effect :=
  alist_lookup lib.EOC_by_id id

/-- snippet_library::get_name_by_id. -/
def get_name_by_id (lib : snippet_library) (id : snippet_id) : Option translation :=
  alist_lookup lib.name_by_id id

/-- snippet_library::get_snippet_ref_by_id: empty-translation sentinel when absent. -/
def get_snippet_ref_by_id (lib : snippet_library) (id : snippet_id) : translation :=
  match alist_lookup lib.snippets_by_id id with
  | none => empty_translation
  | some t => t

/-- snippet_library::has_snippet_with_id. -/
def has_snippet_with_id (lib : snippet_library) (id : snippet_id) : Bool :=
  (alist_lookup lib.snippets_by_id id).isSome

/-- snippet_library::random_from_category (seeded overload).  The index
drawn by mt19937(seed) + uniform_int_distribution(0, count-1) is d seed
count; an out-of-range anonymous index yields none (the C++ access would
be out of bounds there, which the range property of d rules out). -/
def random_from_category (lib : snippet_library) (cat : Str) (seed : Nat)
    (d : Nat → Nat → Nat) : Option translation :=
  match alist_lookup lib.snippets_by_category cat with
  | none => none
  | some b =>
    if b.ids.isEmpty && b.no_id.isEmpty then none
    else
      let count := b.ids.length + b.no_id.length
      let index := d seed count
      if h : index < b.ids.length then
        get_snippet_by_id lib (b.ids.get ⟨index, h⟩)
      else
        b.no_id.get? (index - b.ids.length)

/-- One step of the map-building loop in migrate_hash_to_id: entries whose
text has no legacy hash are skipped, others are emplaced (no overwrite). -/
def hash_step (acc : List (Int × snippet_id)) (p : snippet_id × translation) :
    List (Int × snippet_id) :=
  match p.2.legacy_hash with
  | some h => alist_emplace acc h p.1
  | none => acc

/-- Reverse map built by migrate_hash_to_id from the current id index. -/
def build_hash_migration (entries : List (snippet_id × translation)) :
    List (Int × snippet_id) :=
  entries.foldl hash_step []

/-- snippet_library::migrate_hash_to_id: build the reverse map lazily
(only when the optional is empty), then look up the hash, with NULL_ID
as the absent result.  Returns the id together with the updated state. -/
def migrate_hash_to_id (lib : snippet_library) (old_hash : Int) :
    snippet_id × snippet_library :=
  let m : List (Int × snippet_id) :=
    match lib.hash_to_id_migration with
    | some m0 => m0
    | none => build_hash_migration lib.snippets_by_id
  let lib' : snippet_library := { lib with hash_to_id_migration := some m }
  match alist_lookup m old_hash with
  | none => (snippet_id.NULL_ID, lib')
  | some id => (id, lib')

/-- snippet_library::get_snippets_by_category. -/
def get_snippets_by_category (lib : snippet_library) (cat : Str)
    (add_null_id : Bool) : List (snippet_id × Str) :=
  if ¬ has_category lib cat then []
  else
    match alist_lookup lib.snippets_by_category cat with
    | none => []
    | some snipps =>
      (if add_null_id && ¬ snipps.ids.isEmpty then [(snippet_id.NULL_ID, ([] : Str))]
       else []) ++
      snipps.ids.map (fun id => (id, (get_snippet_ref_by_id lib id).translated))

/-- Tag scanner of snippet_library::expand: first occurrence of the
delimiter character, splitting the list around it. -/
def break_at (c : Char) : Str → Option (Str × Str)
  | [] => none
  | x :: xs =>
    if x = c then some ([], xs)
    else
      match break_at c xs with
      | none => none
      | some (a, b) => some (x :: a, b)

/-- Locate the first complete tag: prefix before the opening delimiter,
the tag inclusive of both delimiters, and the remainder after it. -/
def findTag (s : Str) : Option (Str × Str × Str) :=
  match break_at '<' s with
  | none => none
  | some (pre, rest1) =>
    match break_at '>' rest1 with
    | none => none
    | some (mid, rest2) => some (pre, '<' :: (mid ++ ['>']), rest2)

/-- snippet_library::expand.  rfc stands for the call
random_from_category(symbol) followed by translated(); it abstracts the
per-call random seed as a fixed draw oracle.  The C++ recursion on the
drawn replacement text has no structural bound, so fuel makes the
function total: none means the fuel ran out before the C++ recursion
finished. -/
def expandF (rfc : Str → Option Str) : Nat → Str → Option Str
  | 0, _ => none
  | n + 1, s =>
    match findTag s with
    | none => some s
    | some (pre, tag, rest) =>
      match rfc tag with
      | none =>
        match expandF rfc n rest with
        | none => none
        | some e => some (pre ++ tag ++ e)
      | some repl =>
        match expandF rfc n repl with
        | none => none
        | some e1 =>
          match expandF rfc n rest with
          | none => none
          | some e2 => some (pre ++ e1 ++ e2)

/-- The draw oracle induced by a registry state, a seed and an index
function: exactly the call expand makes for each scanned tag. -/
def rfc_of (lib : snippet_library) (seed : Nat) (d : Nat → Nat → Nat) :
    Str → Option Str :=
  fun tag => (random_from_category lib tag seed d).map translation.translated

/-- Every id stored in some bucket of the category map is a key of the id map. -/
def covered (cm : List (Str × category_snippets))
    (im : List (snippet_id × translation)) : Prop :=
  ∀ p ∈ cm, ∀ id ∈ p.2.ids, (alist_lookup im id).isSome = true

instance (cm : List (Str × category_snippets))
    (im : List (snippet_id × translation)) : Decidable (covered cm im) := by
  unfold covered
  infer_instance

/-- Registry invariant: every id stored in some category bucket is a key
of snippets_by_id. -/
def registry_inv (lib : snippet_library) : Prop :=
  covered lib.snippets_by_category lib.snippets_by_id

instance (lib : snippet_library) : Decidable (registry_inv lib) := by
  unfold registry_inv
  infer_instance

/-! ### Association list lemmas -/

theorem alist_lookup_insert {K V : Type} [DecidableEq K] (m : List (K × V))
    (k k' : K) (v : V) :
    alist_lookup (alist_insert m k v) k' =
      if k = k' then some v else alist_lookup m k' := by
  induction m with
  | nil => simp [alist_insert, alist_lookup]
  | cons p rest ih =>
    obtain ⟨a, b⟩ := p
    by_cases hak : a = k
    · subst hak
      by_cases hk' : a = k' <;> simp [alist_insert, alist_lookup, hk']
    · by_cases hak' : a = k'
      · subst hak'
        simp [alist_insert, alist_lookup, hak, Ne.symm hak]
      · simp [alist_insert, alist_lookup, hak, hak', ih]

theorem alist_lookup_mem {K V : Type} [DecidableEq K] (m : List (K × V))
    (k : K) (v : V) : alist_lookup m k = some v → (k, v) ∈ m := by
  induction m with
  | nil => simp [alist_lookup]
  | cons p rest ih =>
    obtain ⟨a, b⟩ := p
    by_cases hak : a = k
    · subst hak
      simp [alist_lookup]
      intro h
      exact Or.inl h.symm
    · simp [alist_lookup, hak]
      intro h
      exact Or.inr (ih h)

theorem mem_alist_emplace {K V : Type} [DecidableEq K] (m : List (K × V))
    (k : K) (v : V) (p : K × V) :
    p ∈ alist_emplace m k v → p ∈ m ∨ p = (k, v) := by
  induction m with
  | nil => simp [alist_emplace]
  | cons q rest ih =>
    obtain ⟨a, b⟩ := q
    by_cases hak : a = k
    · simp [alist_emplace, hak]
      intro h
      exact Or.inl h
    · simp [alist_emplace, hak]
      intro h
      rcases h with h | h
      · exact Or.inl (Or.inl h)
      · rcases ih h with h' | h'
        · exact Or.inl (Or.inr h')
        · exact Or.inr h'

theorem alist_lookup_emplace_ne {K V : Type} [DecidableEq K] (m : List (K × V))
    (k k' : K) (v : V) (hne : k ≠ k') :
    alist_lookup (alist_emplace m k v) k' = alist_lookup m k' := by
  induction m with
  | nil => simp [alist_emplace, alist_lookup, hne]
  | cons q rest ih =>
    obtain ⟨a, b⟩ := q
    by_cases hak : a = k <;> by_cases hak' : a = k' <;>
      simp [alist_emplace, alist_lookup, hak, hak', ih, hne, Ne.symm hne]

theorem alist_lookup_insert_isSome {K V : Type} [DecidableEq K]
    (m : List (K × V)) (k k' : K) (v : V)
    (h : (alist_lookup m k').isSome = true) :
    (alist_lookup (alist_insert m k v) k').isSome = true := by
  rw [alist_lookup_insert]
  by_cases hk : k = k'
  · simp [hk]
  · simpa [hk] using h

/-! ### Bucket map lemmas -/

theorem mem_bucket_modify (m : List (Str × category_snippets)) (cat : Str)
    (f : category_snippets → category_snippets) (p : Str × category_snippets) :
    p ∈ bucket_modify m cat f →
      p ∈ m ∨ p = (cat, f empty_bucket) ∨ ∃ b, (cat, b) ∈ m ∧ p = (cat, f b) := by
  induction m with
  | nil =>
    intro h
    rw [bucket_modify] at h
    rcases List.mem_singleton.mp h with h'
    exact Or.inr (Or.inl h')
  | cons q rest ih =>
    obtain ⟨a, b⟩ := q
    intro h
    rw [bucket_modify] at h
    by_cases hac : a = cat
    · rw [if_pos hac] at h
      subst hac
      rcases List.mem_cons.mp h with h' | h'
      · exact Or.inr (Or.inr ⟨b, List.mem_cons_self _ _, h'⟩)
      · exact Or.inl (List.mem_cons_of_mem _ h')
    · rw [if_neg hac] at h
      rcases List.mem_cons.mp h with h' | h'
      · exact Or.inl (h' ▸ List.mem_cons_self _ _)
      · rcases ih h' with h'' | h'' | h''
        · exact Or.inl (List.mem_cons_of_mem _ h'')
        · exact Or.inr (Or.inl h'')
        · obtain ⟨b', hb', hp⟩ := h''
          exact Or.inr (Or.inr ⟨b', List.mem_cons_of_mem _ hb', hp⟩)

/-! ### Invariant preservation lemmas -/

theorem covered_push_anon (cm : List (Str × category_snippets))
    (im : List (snippet_id × translation)) (cat : Str) (t : translation)
    (hc : covered cm im) : covered (bucket_modify cm cat (push_anon t)) im := by
  intro p hp id hid
  rcases mem_bucket_modify cm cat (push_anon t) p hp with h | h | h
  · exact hc p h id hid
  · subst h
    simp [push_anon, empty_bucket] at hid
  · obtain ⟨b, hb, hp'⟩ := h
    subst hp'
    simp only [push_anon] at hid
    exact hc (cat, b) hb id hid

theorem covered_push_id (cm : List (Str × category_snippets))
    (im : List (snippet_id × translation)) (cat : Str) (id : snippet_id)
    (v : translation) (hc : covered cm im) :
    covered (bucket_modify cm cat (push_id id)) (alist_insert im id v) := by
  intro p hp id' hid'
  rcases mem_bucket_modify cm cat (push_id id) p hp with h | h | h
  · exact alist_lookup_insert_isSome im id id' v (hc p h id' hid')
  · subst h
    simp [push_id, empty_bucket] at hid'
    subst hid'
    rw [alist_lookup_insert]
    simp
  · obtain ⟨b, hb, hp'⟩ := h
    subst hp'
    simp only [push_id, List.mem_append, List.mem_singleton] at hid'
    rcases hid' with h' | h'
    · exact alist_lookup_insert_isSome im id id' v (hc (cat, b) hb id' h')
    · subst h'
      rw [alist_lookup_insert]
      simp

/-! ### Hash migration map lemmas -/

theorem mem_foldl_hash_step (entries : List (snippet_id × translation))
    (acc : List (Int × snippet_id)) (p : Int × snippet_id) :
    p ∈ entries.foldl hash_step acc →
      p ∈ acc ∨ ∃ t, (p.2, t) ∈ entries ∧ t.legacy_hash = some p.1 := by
  induction entries generalizing acc with
  | nil =>
    intro h
    exact Or.inl h
  | cons q rest ih =>
    intro h
    rw [List.foldl_cons] at h
    rcases ih (hash_step acc q) h with h' | h'
    · rw [hash_step] at h'
      rcases hq : q.2.legacy_hash with _ | hv
      · rw [hq] at h'
        exact Or.inl h'
      · rw [hq] at h'
        rcases mem_alist_emplace acc hv q.1 p h' with h'' | h''
        · exact Or.inl h''
        · subst h''
          exact Or.inr ⟨q.2, List.mem_cons_self _ _, hq⟩
    · obtain ⟨t, ht, hh⟩ := h'
      exact Or.inr ⟨t, List.mem_cons_of_mem _ ht, hh⟩

theorem lookup_foldl_hash_step_none (entries : List (snippet_id × translation))
    (acc : List (Int × snippet_id)) (h : Int)
    (hacc : alist_lookup acc h = none)
    (habs : ∀ q ∈ entries, q.2.legacy_hash ≠ some h) :
    alist_lookup (entries.foldl hash_step acc) h = none := by
  induction entries generalizing acc with
  | nil => exact hacc
  | cons q rest ih =>
    rw [List.foldl_cons]
    refine ih (hash_step acc q) ?_ (fun r hr => habs r (List.mem_cons_of_mem _ hr))
    rw [hash_step]
    rcases hq : q.2.legacy_hash with _ | hv
    · exact hacc
    · have hne : hv ≠ h := by
        intro he
        exact habs q (List.mem_cons_self _ _) (he ▸ hq)
      rw [alist_lookup_emplace_ne acc hv h q.1 hne]
      exact hacc

/-! ### Invariant preservation -/

theorem registry_inv_add (lib : snippet_library) (cat : Str) (jo : snippet_json)
    (h : registry_inv lib) : registry_inv (add_snippet_from_json lib cat jo).1 := by
  rw [add_snippet_from_json]
  rcases jo.id with _ | id
  · exact covered_push_anon _ _ _ _ h
  · by_cases hnull : id.is_null
    · simp only [hnull, if_true]
      exact h
    · simp only [hnull, if_false]
      by_cases hdup : (alist_lookup lib.snippets_by_id id).isSome = true
      · simp only [hdup, if_true]
        exact h
      · simp only [hdup, if_false]
        rcases jo.effect_on_examine with _ | e
        · exact covered_push_id _ _ _ _ _ h
        · exact covered_push_id _ _ _ _ _ h

theorem registry_inv_add_entries (cat : Str) (es : List snippet_entry) :
    ∀ lib : snippet_library, registry_inv lib →
      registry_inv (add_entries lib cat es).1 := by
  induction es with
  | nil =>
    intro lib h
    exact h
  | cons e rest ih =>
    intro lib h
    rcases e with t | jo
    · rw [add_entries]
      exact ih _ (covered_push_anon _ _ _ _ h)
    · rw [add_entries]
      rcases hadd : add_snippet_from_json lib cat jo with ⟨lib', err⟩
      have h' : registry_inv lib' := by
        have := registry_inv_add lib cat jo h
        rw [hadd] at this
        exact this
      rcases err with _ | e'
      · exact ih _ h'
      · exact h'

theorem registry_inv_add_array (lib : snippet_library) (cat : Str)
    (es : List snippet_entry) (h : registry_inv lib) :
    registry_inv (add_snippets_from_json lib cat es).1 :=
  registry_inv_add_entries cat es _ h

theorem registry_inv_load (lib : snippet_library) (cat : Str)
    (p : load_payload) (h : registry_inv lib) :
    registry_inv (load_snippet lib cat p).1 := by
  unfold load_snippet
  rcases p with jo | es
  · exact registry_inv_add _ _ _ h
  · exact registry_inv_add_array _ _ _ h

theorem registry_inv_clear (lib : snippet_library) :
    registry_inv (clear_snippets lib) := by
  intro p hp
  simp [clear_snippets] at hp

theorem registry_inv_migrate (lib : snippet_library) (h : Int)
    (hinv : registry_inv lib) : registry_inv (migrate_hash_to_id lib h).2 := by
  rw [migrate_hash_to_id]
  rcases alist_lookup _ h with _ | id
  · exact hinv
  · exact hinv

/-! ### Tag scanning and expansion lemmas -/

theorem break_at_eq (c : Char) (s : Str) :
    ∀ a b : Str, break_at c s = some (a, b) → s = a ++ c :: b := by
  induction s with
  | nil =>
    intro a b h
    simp [break_at] at h
  | cons x xs ih =>
    intro a b h
    rw [break_at] at h
    by_cases hx : x = c
    · rw [if_pos hx] at h
      simp only [Option.some.injEq, Prod.mk.injEq] at h
      obtain ⟨h1, h2⟩ := h
      subst h1
      subst h2
      subst hx
      simp
    · rw [if_neg hx] at h
      rcases hrec : break_at c xs with _ | p
      · rw [hrec] at h
        simp at h
      · obtain ⟨a', b'⟩ := p
        rw [hrec] at h
        simp only [Option.some.injEq, Prod.mk.injEq] at h
        obtain ⟨h1, h2⟩ := h
        subst h1
        subst h2
        rw [ih a' b' hrec]
        simp

theorem findTag_eq (s pre tag rest : Str)
    (h : findTag s = some (pre, tag, rest)) : s = pre ++ tag ++ rest := by
  rw [findTag] at h
  rcases h1 : break_at '<' s with _ | p1
  · rw [h1] at h
    simp at h
  · obtain ⟨pre', rest1⟩ := p1
    rw [h1] at h
    dsimp only at h
    rcases h2 : break_at '>' rest1 with _ | p2
    · rw [h2] at h
      simp at h
    · obtain ⟨mid, rest2⟩ := p2
      rw [h2] at h
      dsimp only at h
      simp only [Option.some.injEq, Prod.mk.injEq] at h
      obtain ⟨hp, ht, hr⟩ := h
      subst hp
      subst ht
      subst hr
      rw [break_at_eq '<' s pre' rest1 h1, break_at_eq '>' rest1 mid rest2 h2]
      simp

theorem findTag_tag_len (s pre tag rest : Str)
    (h : findTag s = some (pre, tag, rest)) : 2 ≤ tag.length := by
  rw [findTag] at h
  rcases h1 : break_at '<' s with _ | p1
  · rw [h1] at h
    simp at h
  · obtain ⟨pre', rest1⟩ := p1
    rw [h1] at h
    dsimp only at h
    rcases h2 : break_at '>' rest1 with _ | p2
    · rw [h2] at h
      simp at h
    · obtain ⟨mid, rest2⟩ := p2
      rw [h2] at h
      dsimp only at h
      simp only [Option.some.injEq, Prod.mk.injEq] at h
      obtain ⟨hp, ht, hr⟩ := h
      subst ht
      simp only [List.length_cons, List.length_append, List.length_nil]
      omega

theorem expandF_mono (rfc : Str → Option Str) (n m : Nat) (hnm : n ≤ m) :
    ∀ s r : Str, expandF rfc n s = some r → expandF rfc m s = some r := by
  induction n generalizing m with
  | zero =>
    intro s r h
    simp [expandF] at h
  | succ n ih =>
    intro s r h
    obtain ⟨m', rfl⟩ : ∃ m', m = m' + 1 := ⟨m - 1, by omega⟩
    have hnm' : n ≤ m' := by omega
    rw [expandF] at h ⊢
    rcases hf : findTag s with _ | p
    · rw [hf] at h
      dsimp only at h ⊢
      exact h
    · obtain ⟨pre, tag, rest⟩ := p
      rw [hf] at h
      dsimp only at h ⊢
      rcases hr : rfc tag with _ | repl
      · rw [hr] at h
        dsimp only at h ⊢
        rcases he : expandF rfc n rest with _ | e
        · rw [he] at h
          simp at h
        · rw [he] at h
          dsimp only at h
          rw [ih m' hnm' rest e he]
          exact h
      · rw [hr] at h
        dsimp only at h ⊢
        rcases he1 : expandF rfc n repl with _ | e1
        · rw [he1] at h
          simp at h
        · rw [he1] at h
          dsimp only at h
          rcases he2 : expandF rfc n rest with _ | e2
          · rw [he2] at h
            simp at h
          · rw [he2] at h
            dsimp only at h
            rw [ih m' hnm' repl e1 he1, ih m' hnm' rest e2 he2]
            exact h

/-- Fuel-bounded list of the tags the expansion loop visits when none of
them yields a snippet: the first complete tag of the string, then the
tags of the remainder after it.  Fuel length + 1 always suffices, since
every step strips at least the two tag delimiters. -/
def scan_tagsF : Nat → Str → List Str
  | 0, _ => []
  | n + 1, s =>
    match findTag s with
    | none => []
    | some (_, tag, rest) => tag :: scan_tagsF n rest

/-- The tags found during the scan of s. -/
def scan_tags (s : Str) : List Str := scan_tagsF (s.length + 1) s

theorem scan_tagsF_stable :
    ∀ (n m : Nat) (s : Str), s.length < n → s.length < m →
      scan_tagsF n s = scan_tagsF m s := by
  intro n
  induction n with
  | zero =>
    intro m s hn hm
    exact absurd hn (Nat.not_lt_zero _)
  | succ n ih =>
    intro m s hn hm
    obtain ⟨m', rfl⟩ : ∃ m', m = m' + 1 := ⟨m - 1, by omega⟩
    rw [scan_tagsF, scan_tagsF]
    rcases hf : findTag s with _ | p
    · rfl
    · obtain ⟨pre, tag, rest⟩ := p
      dsimp only
      have hdec := findTag_eq s pre tag rest hf
      have htag := findTag_tag_len s pre tag rest hf
      have hlen : rest.length + 2 ≤ s.length := by
        rw [hdec]
        simp [List.length_append]
        omega
      rw [ih m' rest (by omega) (by omega)]

theorem expandF_id_scanned_aux (rfc : Str → Option Str) :
    ∀ (n : Nat) (s : Str), s.length < n →
      (∀ t ∈ scan_tags s, rfc t = none) →
      expandF rfc (s.length + 1) s = some s := by
  intro n
  induction n with
  | zero =>
    intro s h hscan
    exact absurd h (Nat.not_lt_zero _)
  | succ n ih =>
    intro s hs hscan
    rw [scan_tags, scan_tagsF] at hscan
    rw [expandF]
    rcases hf : findTag s with _ | p
    · dsimp only
    · obtain ⟨pre, tag, rest⟩ := p
      rw [hf] at hscan
      dsimp only at hscan
      dsimp only
      rw [hscan tag (List.mem_cons_self _ _)]
      dsimp only
      have hdec := findTag_eq s pre tag rest hf
      have htag := findTag_tag_len s pre tag rest hf
      have hlen : rest.length + 2 ≤ s.length := by
        rw [hdec]
        simp [List.length_append]
        omega
      have hscan' : ∀ t ∈ scan_tags rest, rfc t = none := by
        intro t ht
        apply hscan t
        apply List.mem_cons_of_mem
        rw [scan_tags] at ht
        rw [scan_tagsF_stable (rest.length + 1) s.length rest
          (Nat.lt_succ_self _) (by omega)] at ht
        exact ht
      have hrest : expandF rfc (rest.length + 1) rest = some rest :=
        ih rest (by omega) hscan'
      have hrest' : expandF rfc s.length rest = some rest :=
        expandF_mono rfc (rest.length + 1) s.length (by omega) rest rest hrest
      rw [hrest']
      rw [hdec]

/-! ### Concrete registry states used for counterexamples and witnesses -/

/-- A record with an id, a legacy hash, an effect and no name field. -/
def jo_x : snippet_json :=
  { text := { txt := [ 'h', 'i' ], legacy_hash_val := some 7 },
    id := some { str := [ 'x' ] },
    effect_on_examine := some { payload := [ 'e' ] },
    name := none }

/-- Registry after loading jo_x into category "c" from the empty state. -/
def lib_x : snippet_library := (add_snippet_from_json empty_library [ 'c' ] jo_x).1

/-- Nested-expansion registry: category "<a>" holds the single anonymous
text "<b>", category "<b>" holds the single anonymous text "Y". -/
def lib_ab : snippet_library :=
  (add_snippets_from_json
    (add_snippets_from_json empty_library [ '<', 'a', '>' ]
      [ snippet_entry.str { txt := [ '<', 'b', '>' ], legacy_hash_val := none } ]).1
    [ '<', 'b', '>' ]
    [ snippet_entry.str { txt := [ 'Y' ], legacy_hash_val := none } ]).1

/-! ### Claim C1 -/

/-- C1 counterexample: on the reachable state lib_x, clear_snippets does
not leave all four maps empty — EOC_by_id and name_by_id keep their
entries, so the claim as stated is false. -/
theorem c1_clear_counterexample :
    ¬ ((clear_snippets lib_x).snippets_by_category = [] ∧
       (clear_snippets lib_x).snippets_by_id = [] ∧
       (clear_snippets lib_x).EOC_by_id = [] ∧
       (clear_snippets lib_x).name_by_id = [] ∧
       (clear_snippets lib_x).hash_to_id_migration = none) := by
  decide

/-- C1 (amended): after clear_snippets, snippets_by_category and
snippets_by_id are empty and the migration optional is None, while
EOC_by_id and name_by_id are left exactly as they were. -/
theorem c1_clear_amended (lib : snippet_library) :
    (clear_snippets lib).snippets_by_category = [] ∧
    (clear_snippets lib).snippets_by_id = [] ∧
    (clear_snippets lib).hash_to_id_migration = none ∧
    (clear_snippets lib).EOC_by_id = lib.EOC_by_id ∧
    (clear_snippets lib).name_by_id = lib.name_by_id :=
  ⟨rfl, rfl, rfl, rfl, rfl⟩

/-! ### Claim C7 -/

/-- C7: adding a record whose id is the null id fails with InvalidId;
adding a record whose (non-null) id is already a key of the id index
fails with DuplicateId; after clear_snippets the same non-null id loads
without error. -/
theorem c7_add_error_spec (lib : snippet_library) (cat : Str)
    (jo : snippet_json) (id : snippet_id) (hid : jo.id = some id) :
    (id.is_null = true →
       (add_snippet_from_json lib cat jo).2 = some snippet_err.InvalidId) ∧
    (id.is_null = false → (alist_lookup lib.snippets_by_id id).isSome = true →
       (add_snippet_from_json lib cat jo).2 = some snippet_err.DuplicateId) ∧
    (id.is_null = false →
       (add_snippet_from_json (clear_snippets lib) cat jo).2 = none) := by
  refine ⟨?_, ?_, ?_⟩
  · intro hnull
    simp [add_snippet_from_json, hid, hnull]
  · intro hnull hdup
    simp [add_snippet_from_json, hid, hnull, hdup]
  · intro hnull
    simp [add_snippet_from_json, clear_snippets, hid, hnull, alist_lookup]

/-- Witness for C7 at a concrete registry and record. -/
theorem c7_add_error_spec_witness :
    (add_snippet_from_json lib_x [ 'c' ] jo_x).2 = some snippet_err.DuplicateId :=
  (c7_add_error_spec lib_x [ 'c' ] jo_x { str := [ 'x' ] } rfl).2.1 (by decide)
    (by decide)

/-! ### Claim C10 -/

/-- C10: a call to add_snippet_from_json that fails (InvalidId or
DuplicateId) leaves all four maps exactly as they were, while still
setting the hash migration optional to None. -/
theorem c10_failed_add_spec (lib : snippet_library) (cat : Str)
    (jo : snippet_json) (herr : (add_snippet_from_json lib cat jo).2 ≠ none) :
    (add_snippet_from_json lib cat jo).1.snippets_by_category = lib.snippets_by_category ∧
    (add_snippet_from_json lib cat jo).1.snippets_by_id = lib.snippets_by_id ∧
    (add_snippet_from_json lib cat jo).1.EOC_by_id = lib.EOC_by_id ∧
    (add_snippet_from_json lib cat jo).1.name_by_id = lib.name_by_id ∧
    (add_snippet_from_json lib cat jo).1.hash_to_id_migration = none := by
  rcases hid : jo.id with _ | id
  · exfalso
    apply herr
    simp [add_snippet_from_json, hid]
  · by_cases hnull : id.is_null = true
    · simp [add_snippet_from_json, hid, hnull]
    · by_cases hdup : (alist_lookup lib.snippets_by_id id).isSome = true
      · simp [add_snippet_from_json, hid, hnull, hdup]
      · exfalso
        apply herr
        simp [add_snippet_from_json, hid, hnull, hdup]

/-- Witness for C10 at a concrete failing call (duplicate id). -/
theorem c10_failed_add_spec_witness :
    (add_snippet_from_json lib_x [ 'c' ] jo_x).1.snippets_by_category =
        lib_x.snippets_by_category ∧
    (add_snippet_from_json lib_x [ 'c' ] jo_x).1.snippets_by_id =
        lib_x.snippets_by_id ∧
    (add_snippet_from_json lib_x [ 'c' ] jo_x).1.EOC_by_id = lib_x.EOC_by_id ∧
    (add_snippet_from_json lib_x [ 'c' ] jo_x).1.name_by_id = lib_x.name_by_id ∧
    (add_snippet_from_json lib_x [ 'c' ] jo_x).1.hash_to_id_migration = none :=
  c10_failed_add_spec lib_x [ 'c' ] jo_x (by decide)

/-! ### Claim C8 -/

/-- C8: the registry invariant — every id in any category bucket is a key
of snippets_by_id — is preserved by add, array add, load, clear and the
(state-mutating) migration query; consequently an id taken from a
category bucket always resolves through the id index. -/
theorem c8_registry_inv_spec :
    (∀ (lib : snippet_library) (cat : Str) (jo : snippet_json),
       registry_inv lib → registry_inv (add_snippet_from_json lib cat jo).1) ∧
    (∀ (lib : snippet_library) (cat : Str) (es : List snippet_entry),
       registry_inv lib → registry_inv (add_snippets_from_json lib cat es).1) ∧
    (∀ (lib : snippet_library) (cat : Str) (p : load_payload),
       registry_inv lib → registry_inv (load_snippet lib cat p).1) ∧
    (∀ lib : snippet_library, registry_inv (clear_snippets lib)) ∧
    (∀ (lib : snippet_library) (h : Int),
       registry_inv lib → registry_inv (migrate_hash_to_id lib h).2) ∧
    (∀ (lib : snippet_library) (cat : Str) (b : category_snippets)
       (id : snippet_id), registry_inv lib →
       alist_lookup lib.snippets_by_category cat = some b → id ∈ b.ids →
       get_snippet_by_id lib id ≠ none) := by
  refine ⟨registry_inv_add, registry_inv_add_array, registry_inv_load,
    registry_inv_clear, registry_inv_migrate, ?_⟩
  intro lib cat b id hinv hL hmem
  have hsome := hinv (cat, b) (alist_lookup_mem _ cat b hL) id hmem
  rw [get_snippet_by_id]
  intro hnone
  rw [hnone] at hsome
  simp at hsome

/-- Witness for C8 on a concrete reachable state. -/
theorem c8_registry_inv_spec_witness :
    registry_inv (add_snippet_from_json empty_library [ 'c' ] jo_x).1 :=
  c8_registry_inv_spec.1 empty_library [ 'c' ] jo_x (by decide)

/-! ### Claim C5 -/

/-- C5: seeded selection is deterministic — the same call on the same
state yields the same result, and more strongly the result is a pure
function of the category bucket, the id resolutions and the seed: two
states agreeing on those agree on the selection. -/
theorem c5_random_deterministic :
    (∀ (lib : snippet_library) (cat : Str) (seed : Nat) (d : Nat → Nat → Nat),
       random_from_category lib cat seed d = random_from_category lib cat seed d) ∧
    (∀ (lib1 lib2 : snippet_library) (cat : Str) (seed : Nat)
       (d : Nat → Nat → Nat),
       alist_lookup lib1.snippets_by_category cat =
         alist_lookup lib2.snippets_by_category cat →
       (∀ id, alist_lookup lib1.snippets_by_id id =
         alist_lookup lib2.snippets_by_id id) →
       random_from_category lib1 cat seed d =
         random_from_category lib2 cat seed d) := by
  refine ⟨fun lib cat seed d => rfl, ?_⟩
  intro lib1 lib2 cat seed d h1 h2
  rw [random_from_category, random_from_category, ← h1]
  rcases alist_lookup lib1.snippets_by_category cat with _ | b
  · rfl
  · simp only [get_snippet_by_id, h2]

/-- Witness for C5 with two (equal) concrete states. -/
theorem c5_random_deterministic_witness :
    random_from_category lib_x [ 'c' ] 42 (fun _ _ => 0) =
      random_from_category lib_x [ 'c' ] 42 (fun _ _ => 0) :=
  c5_random_deterministic.2 lib_x lib_x [ 'c' ] 42 (fun _ _ => 0) rfl
    (fun id => rfl)

/-! ### Claim C2 -/

theorem lookup_build_hash_none (entries : List (snippet_id × translation))
    (h : Int) (habs : ∀ q ∈ entries, q.2.legacy_hash ≠ some h) :
    alist_lookup (build_hash_migration entries) h = none := by
  rw [build_hash_migration]
  exact lookup_foldl_hash_step_none entries [] h rfl habs

theorem add_hash_none (lib : snippet_library) (cat : Str) (jo : snippet_json) :
    (add_snippet_from_json lib cat jo).1.hash_to_id_migration = none := by
  rcases hid : jo.id with _ | id
  · simp [add_snippet_from_json, hid]
  · by_cases hnull : id.is_null = true
    · simp [add_snippet_from_json, hid, hnull]
    · by_cases hdup : (alist_lookup lib.snippets_by_id id).isSome = true
      · simp [add_snippet_from_json, hid, hnull, hdup]
      · rcases heff : jo.effect_on_examine with _ | e
        · simp [add_snippet_from_json, hid, hnull, hdup, heff]
        · simp [add_snippet_from_json, hid, hnull, hdup, heff]

theorem add_entries_hash_none (cat : Str) (es : List snippet_entry) :
    ∀ lib : snippet_library, lib.hash_to_id_migration = none →
      (add_entries lib cat es).1.hash_to_id_migration = none := by
  induction es with
  | nil =>
    intro lib h
    exact h
  | cons e rest ih =>
    intro lib h
    rcases e with t | jo
    · rw [add_entries]
      exact ih _ h
    · rw [add_entries]
      rcases hadd : add_snippet_from_json lib cat jo with ⟨lib', err⟩
      have h' : lib'.hash_to_id_migration = none := by
        have := add_hash_none lib cat jo
        rw [hadd] at this
        exact this
      rcases err with _ | e'
      · exact ih _ h'
      · exact h'

theorem add_array_hash_none (lib : snippet_library) (cat : Str)
    (es : List snippet_entry) :
    (add_snippets_from_json lib cat es).1.hash_to_id_migration = none :=
  add_entries_hash_none cat es _ rfl

theorem load_hash_none (lib : snippet_library) (cat : Str) (p : load_payload) :
    (load_snippet lib cat p).1.hash_to_id_migration = none := by
  unfold load_snippet
  rcases p with jo | es
  · exact add_hash_none _ _ _
  · exact add_array_hash_none _ _ _

/-- C2: migrate_hash_to_id on an invalidated state resolves a hash through
the map built from the current id index — a returned non-null id is one
whose stored text carries that legacy hash, and a hash carried by no
stored text yields the null id; every load entry point leaves the
migration optional invalidated (None), so a migration call made after a
load rebuilds from the freshly loaded entries; and once built, a further
call neither rebuilds nor changes the state. -/
theorem c2_migrate_hash_spec :
    (∀ (lib : snippet_library) (h : Int), lib.hash_to_id_migration = none →
       ((migrate_hash_to_id lib h).1 ≠ snippet_id.NULL_ID →
          ∃ t, ((migrate_hash_to_id lib h).1, t) ∈ lib.snippets_by_id ∧
            t.legacy_hash = some h) ∧
       ((∀ q ∈ lib.snippets_by_id, q.2.legacy_hash ≠ some h) →
          (migrate_hash_to_id lib h).1 = snippet_id.NULL_ID) ∧
       (migrate_hash_to_id lib h).2.hash_to_id_migration =
         some (build_hash_migration lib.snippets_by_id)) ∧
    (∀ (lib : snippet_library) (cat : Str) (jo : snippet_json),
       (add_snippet_from_json lib cat jo).1.hash_to_id_migration = none) ∧
    (∀ (lib : snippet_library) (cat : Str) (es : List snippet_entry),
       (add_snippets_from_json lib cat es).1.hash_to_id_migration = none) ∧
    (∀ (lib : snippet_library) (cat : Str) (p : load_payload),
       (load_snippet lib cat p).1.hash_to_id_migration = none) ∧
    (∀ (lib : snippet_library) (m : List (Int × snippet_id)) (h : Int),
       lib.hash_to_id_migration = some m →
         (migrate_hash_to_id lib h).2 = lib ∧
         (migrate_hash_to_id lib h).1 =
           (alist_lookup m h).getD snippet_id.NULL_ID) := by
  refine ⟨?_, add_hash_none, add_array_hash_none, load_hash_none, ?_⟩
  · intro lib h hm
    refine ⟨?_, ?_, ?_⟩
    · intro hne
      rw [migrate_hash_to_id, hm] at hne ⊢
      dsimp only at hne ⊢
      rcases hL : alist_lookup (build_hash_migration lib.snippets_by_id) h
        with _ | id
      · rw [hL] at hne
        exact absurd rfl hne
      · dsimp only at hne ⊢
        have hmem : (h, id) ∈ build_hash_migration lib.snippets_by_id :=
          alist_lookup_mem _ h id hL
        rcases mem_foldl_hash_step lib.snippets_by_id [] (h, id) hmem
          with h' | h'
        · simp at h'
        · exact h'
    · intro habs
      rw [migrate_hash_to_id, hm]
      dsimp only
      rw [lookup_build_hash_none lib.snippets_by_id h habs]
    · rw [migrate_hash_to_id, hm]
      dsimp only
      rcases alist_lookup (build_hash_migration lib.snippets_by_id) h
        with _ | id
      · rfl
      · rfl
  · intro lib m h hm
    constructor
    · rw [migrate_hash_to_id, hm]
      dsimp only
      rcases alist_lookup m h with _ | id
      · dsimp only
        rw [← hm]
      · dsimp only
        rw [← hm]
    · rw [migrate_hash_to_id, hm]
      dsimp only
      rcases alist_lookup m h with _ | id
      · rfl
      · rfl

/-- Witness for C2 on a concrete invalidated state: hash 7 resolves to
the entry loaded with it. -/
theorem c2_migrate_hash_spec_witness :
    ∃ t, ((migrate_hash_to_id lib_x 7).1, t) ∈ lib_x.snippets_by_id ∧
      t.legacy_hash = some 7 :=
  (c2_migrate_hash_spec.1 lib_x 7 rfl).1 (by decide)

/-! ### Claim C9 -/

/-- C9: listing a category yields the empty sequence for an unknown
category; for a known category it prepends (NULL_ID, "") exactly when
add_null_id is set and the category has at least one identified entry,
then maps each stored id, in order, to its translated text, and every
listed pair is the sentinel or one of the stored ids (anonymous entries
never appear). -/
theorem c9_get_snippets_by_category_spec (lib : snippet_library) (cat : Str)
    (addn : Bool) :
    (alist_lookup lib.snippets_by_category cat = none →
       get_snippets_by_category lib cat addn = []) ∧
    (∀ snipps, alist_lookup lib.snippets_by_category cat = some snipps →
       get_snippets_by_category lib cat addn =
         (if addn = true ∧ snipps.ids ≠ [] then
            [(snippet_id.NULL_ID, ([] : Str))] else []) ++
           snipps.ids.map
             (fun id => (id, (get_snippet_ref_by_id lib id).translated)) ∧
       (∀ q ∈ get_snippets_by_category lib cat addn,
          q.1 = snippet_id.NULL_ID ∨ q.1 ∈ snipps.ids)) := by
  constructor
  · intro hL
    rw [get_snippets_by_category, has_category, hL]
    rfl
  · intro snipps hL
    have heq : get_snippets_by_category lib cat addn =
        (if addn = true ∧ snipps.ids ≠ [] then
           [(snippet_id.NULL_ID, ([] : Str))] else []) ++
          snipps.ids.map
            (fun id => (id, (get_snippet_ref_by_id lib id).translated)) := by
      rw [get_snippets_by_category, has_category, hL]
      by_cases haddn : addn = true
      · by_cases hids : snipps.ids = []
        · simp [haddn, hids]
        · simp [haddn, hids, List.isEmpty_iff]
      · simp [haddn]
    refine ⟨heq, ?_⟩
    intro q hq
    rw [heq] at hq
    rcases List.mem_append.mp hq with h | h
    · by_cases hc : addn = true ∧ snipps.ids ≠ []
      · rw [if_pos hc] at h
        simp at h
        left
        rw [h]
      · rw [if_neg hc] at h
        simp at h
    · right
      obtain ⟨id, hid, hq'⟩ := List.mem_map.mp h
      rw [← hq']
      exact hid

/-- Witness for C9 on a concrete known category with one identified entry. -/
theorem c9_get_snippets_by_category_spec_witness :
    get_snippets_by_category lib_x [ 'c' ] true =
      (if true = true ∧
          ({ ids := [ { str := [ 'x' ] } ], no_id := [] } :
            category_snippets).ids ≠ [] then
         [(snippet_id.NULL_ID, ([] : Str))] else []) ++
        ({ ids := [ { str := [ 'x' ] } ], no_id := [] } :
          category_snippets).ids.map
          (fun id => (id, (get_snippet_ref_by_id lib_x id).translated)) :=
  ((c9_get_snippets_by_category_spec lib_x [ 'c' ] true).2
    { ids := [ { str := [ 'x' ] } ], no_id := [] } (by decide)).1

/-! ### Claim C4 -/

/-- C4: expand is the identity when no complete tag exists (no opening
delimiter, or no closing delimiter after it), and whenever every tag
found during the scan draws no snippet from the oracle — each such tag
is then kept verbatim and only the remainder is rescanned, reproducing
the input. -/
theorem c4_expand_identity_spec :
    (∀ (rfc : Str → Option Str) (n : Nat) (s : Str), findTag s = none →
       expandF rfc (n + 1) s = some s) ∧
    (∀ (rfc : Str → Option Str) (s : Str),
       (∀ t ∈ scan_tags s, rfc t = none) →
       expandF rfc (s.length + 1) s = some s) := by
  constructor
  · intro rfc n s hf
    rw [expandF, hf]
  · intro rfc s hscan
    exact expandF_id_scanned_aux rfc (s.length + 1) s (Nat.lt_succ_self _) hscan

/-- Witness for C4: a tag naming an unknown category, drawn against a
registry whose other categories are nonempty. -/
theorem c4_expand_identity_spec_witness :
    expandF (rfc_of lib_ab 0 (fun _ _ => 0))
        (([ '<', 'z', '>' ] : Str).length + 1) [ '<', 'z', '>' ] =
      some [ '<', 'z', '>' ] :=
  c4_expand_identity_spec.2 (rfc_of lib_ab 0 (fun _ _ => 0)) [ '<', 'z', '>' ]
    (by decide)

/-! ### Claim C3 -/

theorem lib_ab_val : lib_ab =
    { snippets_by_category :=
        [([ '<', 'a', '>' ],
          { ids := [],
            no_id := [{ txt := [ '<', 'b', '>' ], legacy_hash_val := none }] }),
         ([ '<', 'b', '>' ],
          { ids := [], no_id := [{ txt := [ 'Y' ], legacy_hash_val := none }] })],
      snippets_by_id := [], EOC_by_id := [], name_by_id := [],
      hash_to_id_migration := none } := by
  decide

/-- C3: when a complete tag is found and a snippet is drawn for it, the
expansion is the prefix before the tag, then the recursive expansion of
the drawn text, then the recursive expansion of the remainder; in
particular with category "<a>" holding "<b>" and category "<b>" holding
"Y", expanding "<a>" yields "Y" for every seed and every in-range index
function. -/
theorem c3_expand_replacement_spec :
    (∀ (rfc : Str → Option Str) (n : Nat) (s pre tag rest repl : Str),
       findTag s = some (pre, tag, rest) → rfc tag = some repl →
       expandF rfc (n + 1) s =
         (expandF rfc n repl).bind (fun e1 =>
           (expandF rfc n rest).map (fun e2 => pre ++ e1 ++ e2))) ∧
    (∀ (seed : Nat) (d : Nat → Nat → Nat), (∀ s n, 0 < n → d s n < n) →
       expandF (rfc_of lib_ab seed d) 3 [ '<', 'a', '>' ] = some [ 'Y' ]) := by
  constructor
  · intro rfc n s pre tag rest repl hf hr
    rw [expandF, hf]
    dsimp only
    rw [hr]
    dsimp only
    rcases he1 : expandF rfc n repl with _ | e1
    · simp
    · dsimp only
      rcases he2 : expandF rfc n rest with _ | e2
      · simp
      · simp
  · intro seed d hd
    have h1 : d seed 1 = 0 := Nat.lt_one_iff.mp (hd seed 1 Nat.one_pos)
    have ha : rfc_of lib_ab seed d [ '<', 'a', '>' ] = some [ '<', 'b', '>' ] := by
      rw [rfc_of, random_from_category, lib_ab_val]
      simp [alist_lookup, h1, translation.translated]
    have hb : rfc_of lib_ab seed d [ '<', 'b', '>' ] = some [ 'Y' ] := by
      rw [rfc_of, random_from_category, lib_ab_val]
      simp [alist_lookup, h1, translation.translated]
    have hfa : findTag [ '<', 'a', '>' ] = some ([], [ '<', 'a', '>' ], []) := rfl
    have hfb : findTag [ '<', 'b', '>' ] = some ([], [ '<', 'b', '>' ], []) := rfl
    have hfy : findTag [ 'Y' ] = none := rfl
    have hfe : findTag ([] : Str) = none := rfl
    have hy1 : expandF (rfc_of lib_ab seed d) 1 [ 'Y' ] = some [ 'Y' ] := by
      rw [expandF, hfy]
    have he1 : expandF (rfc_of lib_ab seed d) 1 ([] : Str) = some [] := by
      rw [expandF, hfe]
    have he2 : expandF (rfc_of lib_ab seed d) 2 ([] : Str) = some [] := by
      rw [expandF, hfe]
    have hbexp : expandF (rfc_of lib_ab seed d) 2 [ '<', 'b', '>' ] =
        some [ 'Y' ] := by
      rw [expandF, hfb]
      dsimp only
      rw [hb]
      dsimp only
      rw [hy1, he1]
      simp
    rw [expandF, hfa]
    dsimp only
    rw [ha]
    dsimp only
    rw [hbexp, he2]
    simp

/-- Witness for C3 at a concrete seed and index function. -/
theorem c3_expand_replacement_spec_witness :
    expandF (rfc_of lib_ab 42 (fun _ _ => 0)) 3 [ '<', 'a', '>' ] =
      some [ 'Y' ] :=
  c3_expand_replacement_spec.2 42 (fun _ _ => 0) (fun s n h => h)

/-! ### Claim C6 -/

/-- C6: seeded selection returns None exactly when the category is
unknown or holds neither identified nor anonymous entries; otherwise the
drawn index addresses the id sequence (resolved through the id index)
below count(ids) and the anonymous sequence at or above count(ids). -/
theorem c6_random_selection_spec (lib : snippet_library) (cat : Str)
    (seed : Nat) (d : Nat → Nat → Nat) (hinv : registry_inv lib)
    (hd : ∀ s n, 0 < n → d s n < n) :
    (random_from_category lib cat seed d = none ↔
      alist_lookup lib.snippets_by_category cat = none ∨
      ∃ b, alist_lookup lib.snippets_by_category cat = some b ∧
        b.ids = [] ∧ b.no_id = []) ∧
    (∀ b, alist_lookup lib.snippets_by_category cat = some b →
      (∀ h : d seed (b.ids.length + b.no_id.length) < b.ids.length,
         random_from_category lib cat seed d =
           get_snippet_by_id lib
             (b.ids.get ⟨d seed (b.ids.length + b.no_id.length), h⟩)) ∧
      (¬ (b.ids = [] ∧ b.no_id = []) →
         b.ids.length ≤ d seed (b.ids.length + b.no_id.length) →
         random_from_category lib cat seed d =
           b.no_id.get? (d seed (b.ids.length + b.no_id.length) -
             b.ids.length))) := by
  constructor
  · constructor
    · intro hnone
      rcases hL : alist_lookup lib.snippets_by_category cat with _ | b
      · exact Or.inl rfl
      · refine Or.inr ⟨b, rfl, ?_⟩
        by_contra hne
        rw [random_from_category, hL] at hnone
        try dsimp only at hnone
        have hcond : ¬ ((b.ids.isEmpty && b.no_id.isEmpty) = true) := by
          simp only [Bool.and_eq_true, List.isEmpty_iff]
          exact hne
        rw [if_neg hcond] at hnone
        try dsimp only at hnone
        have hpos : 0 < b.ids.length + b.no_id.length := by
          rcases Nat.eq_zero_or_pos (b.ids.length + b.no_id.length) with h0 | h0
          · exfalso
            apply hne
            constructor
            · exact List.length_eq_zero.mp (by omega)
            · exact List.length_eq_zero.mp (by omega)
          · exact h0
        have hi := hd seed _ hpos
        by_cases hlt : d seed (b.ids.length + b.no_id.length) < b.ids.length
        · rw [dif_pos hlt] at hnone
          have hsome := hinv (cat, b) (alist_lookup_mem _ _ _ hL) _
            (List.get_mem b.ids _ hlt)
          rw [get_snippet_by_id] at hnone
          rw [hnone] at hsome
          simp at hsome
        · rw [dif_neg hlt] at hnone
          have hlt2 : d seed (b.ids.length + b.no_id.length) - b.ids.length <
              b.no_id.length := by omega
          rw [List.get?_eq_get hlt2] at hnone
          simp at hnone
    · intro h
      rcases h with hL | ⟨b, hL, h1, h2⟩
      · rw [random_from_category, hL]
      · rw [random_from_category, hL]
        try dsimp only
        rw [if_pos]
        simp [h1, h2]
  · intro b hL
    constructor
    · intro h
      rw [random_from_category, hL]
      try dsimp only
      have hids : b.ids ≠ [] := by
        intro h0
        rw [h0] at h
        simp at h
      have hcond : ¬ ((b.ids.isEmpty && b.no_id.isEmpty) = true) := by
        simp only [Bool.and_eq_true, List.isEmpty_iff]
        intro h'
        exact hids h'.1
      rw [if_neg hcond]
      try dsimp only
      rw [dif_pos h]
    · intro hne hge
      rw [random_from_category, hL]
      try dsimp only
      have hcond : ¬ ((b.ids.isEmpty && b.no_id.isEmpty) = true) := by
        simp only [Bool.and_eq_true, List.isEmpty_iff]
        exact hne
      rw [if_neg hcond]
      try dsimp only
      rw [dif_neg (not_lt.mpr hge)]

/-- Witness for C6 at a concrete state and an unknown category. -/
theorem c6_random_selection_spec_witness :
    random_from_category lib_x [ 'z' ] 5 (fun _ n => n - 1) = none :=
  ((c6_random_selection_spec lib_x [ 'z' ] 5 (fun _ n => n - 1) (by decide)
      (fun s n h => Nat.sub_lt h Nat.one_pos)).1).mpr (Or.inl (by decide))
